import Mathlib

set_option maxRecDepth 4000

/-!
Shallow embedding of the credential-rotation and response-cache core of
`src/exa.js` (exa-cli), together with theorems settling the frozen claims
about it.  Timestamps are milliseconds as `Nat`; JS `null`/`undefined` is
`Option.none`.
-/

namespace ExaCli

/-- The constant `DEFAULT_COOLDOWN_MS` (src/exa.js:244). -/
def DEFAULT_COOLDOWN_MS : Nat := 60000

/-- One rotation record (`state.keys[i]`, shape created at src/exa.js:284). -/
structure KeyRecord where
  valid : Bool
  cooldownUntil : Option Nat
  requests : Nat
  success : Nat
  errors : Nat
deriving Repr, DecidableEq

/-- The record created for a missing index (src/exa.js:284). -/
def defaultKeyRecord : KeyRecord :=
  { valid := true, cooldownUntil := none, requests := 0, success := 0, errors := 0 }

/-- Rotation state (`state.json`, src/exa.js:270): `currentIndex` plus the
sparse index-to-record map `keys`, modelled positionally (`none` = absent). -/
structure KeyState where
  currentIndex : Nat
  keys : List (Option KeyRecord)
deriving Repr, DecidableEq

/-- Lookup of `state.keys[i]` (JS object lookup; `none` = `undefined`). -/
def keyAt (ks : List (Option KeyRecord)) (i : Nat) : Option KeyRecord :=
  ks.getD i none

/-- Total view of an index used after the ensure pass of `getNextKey`;
for `i < keysLen` the entry is always present there. -/
def recAt (ks : List (Option KeyRecord)) (i : Nat) : KeyRecord :=
  (keyAt ks i).getD defaultKeyRecord

/-- The ensure-entries pass of `getNextKey` (src/exa.js:282-286): every
index below the pool size gets a default record if absent; other entries
are left as they were. -/
def ensureKeys (n : Nat) (ks : List (Option KeyRecord)) : List (Option KeyRecord) :=
  (List.range (max n ks.length)).map fun i =>
    match keyAt ks i with
    | some r => some r
    | none => if i < n then some defaultKeyRecord else none

/-- The cooldown filter `!cd || now >= cd` (src/exa.js:296-299). -/
def isAvailable (ks : List (Option KeyRecord)) (now i : Nat) : Bool :=
  match (recAt ks i).cooldownUntil with
  | none => true
  | some cd => decide (cd ≤ now)

/-- The value `state.keys[i].cooldownUntil || 0` (src/exa.js:305-306). -/
def cdVal (ks : List (Option KeyRecord)) (i : Nat) : Nat :=
  ((recAt ks i).cooldownUntil).getD 0

/-- The all-on-cooldown fallback (src/exa.js:304-308); JS `reduce` without
an initial value starts from the first element. -/
def pickSoonestCooldown (ks : List (Option KeyRecord)) : List Nat → Nat
  | [] => 0
  | b :: rest => rest.foldl (fun best i => if cdVal ks i < cdVal ks best then i else best) b

/-- One iteration of the usage-balancing scan (src/exa.js:318-327): visit
`idx = (start + offset) % n` and keep it when it is available and its
`requests` count strictly improves on the best so far (`none` models the
initial `Infinity`). -/
def pickStep (ks : List (Option KeyRecord)) (available : List Nat) (n start : Nat)
    (acc : Nat × Option Nat) (offset : Nat) : Nat × Option Nat :=
  let idx := (start + offset) % n
  if idx ∈ available then
    let usage := (recAt ks idx).requests
    match acc.2 with
    | none => (idx, some usage)
    | some bu => if usage < bu then (idx, some usage) else acc
  else acc

/-- The usage-balancing scan (src/exa.js:314-328): offsets `0..n-1` from
`start`, keeping the first strictly-lower `requests` count; `bestIdx`
starts at `available[0]`. -/
def pickByUsage (ks : List (Option KeyRecord)) (available : List Nat) (n start a0 : Nat) : Nat :=
  ((List.range n).foldl (pickStep ks available n start) (a0, (none : Option Nat))).1

/-- The selector `getNextKey` (src/exa.js:278-333): ensure entries, partition into
valid/available, pick by usage (or soonest cooldown), and advance
`currentIndex`.  `now` stands for `Date.now()`. -/
def getNextKey (keysLen : Nat) (s : KeyState) (now : Nat) : Option Nat × KeyState :=
  let ks := ensureKeys keysLen s.keys
  let validIndices := (List.range keysLen).filter (fun i => (recAt ks i).valid)
  if validIndices.isEmpty then (none, { s with keys := ks })
  else
    match validIndices.filter (isAvailable ks now) with
    | [] =>
        let selected := pickSoonestCooldown ks validIndices
        (some selected, { currentIndex := (selected + 1) % keysLen, keys := ks })
    | a0 :: rest =>
        let start := s.currentIndex % keysLen
        let selected := pickByUsage ks (a0 :: rest) keysLen start a0
        (some selected, { currentIndex := (selected + 1) % keysLen, keys := ks })

/-- The mutator `recordSuccess` (src/exa.js:335-341). -/
def recordSuccess (s : KeyState) (idx : Nat) : KeyState :=
  match keyAt s.keys idx with
  | none => s
  | some k =>
      { s with keys := s.keys.set idx (some
          { k with requests := k.requests + 1, success := k.success + 1,
                   cooldownUntil := none }) }

/-- The window `retryAfterMs || DEFAULT_COOLDOWN_MS` (src/exa.js:347): an absent or
zero (JS-falsy) argument falls back to the default window. -/
def cooldownWindow (retryAfterMs : Option Nat) : Nat :=
  match retryAfterMs with
  | none => DEFAULT_COOLDOWN_MS
  | some r => if r = 0 then DEFAULT_COOLDOWN_MS else r

/-- The mutator `recordRateLimit` (src/exa.js:343-348).  It increments `errors` and
sets `cooldownUntil`, and leaves `requests` untouched. -/
def recordRateLimit (s : KeyState) (idx now : Nat) (retryAfterMs : Option Nat) : KeyState :=
  match keyAt s.keys idx with
  | none => s
  | some k =>
      { s with keys := s.keys.set idx (some
          { k with errors := k.errors + 1,
                   cooldownUntil := some (now + cooldownWindow retryAfterMs) }) }

/-- One cache file: its write time (`mtimeMs`) and the raw payload. -/
structure CacheEntry where
  mtime : Nat
  data : String
deriving Repr, DecidableEq

/-- The cache directory: digest-named entries. -/
abbrev CacheStore := List (String × CacheEntry)

/-- The probe `cacheRead` (src/exa.js:217-224): miss on absence or when the entry is
older than the TTL; storage errors also yield a miss. -/
def cacheRead (store : CacheStore) (key : String) (ttlMinutes now : Nat) : Option String :=
  match store.lookup key with
  | none => none
  | some e => if now - e.mtime > ttlMinutes * 60 * 1000 then none else some e.data

/-- The sort comparator `(a, b) => a.mtime - b.mtime` (src/exa.js:235). -/
def byMtime (a b : String × CacheEntry) : Prop := a.2.mtime ≤ b.2.mtime

instance : DecidableRel byMtime :=
  fun a b => inferInstanceAs (Decidable (a.2.mtime ≤ b.2.mtime))

instance : IsTotal (String × CacheEntry) byMtime :=
  ⟨fun a b => Nat.le_total a.2.mtime b.2.mtime⟩

instance : IsTrans (String × CacheEntry) byMtime :=
  ⟨fun _ _ _ hab hbc => Nat.le_trans hab hbc⟩

/-- The directory contents right after `fs.writeFileSync` (src/exa.js:230)
and before the eviction pass: the entry under `key` is replaced, its write
time becoming `now`. -/
def cacheUpdated (store : CacheStore) (key data : String) (now : Nat) : CacheStore :=
  store.filter (fun e => e.1 ≠ key) ++ [(key, ⟨now, data⟩)]

/-- The writer `cacheWrite` (src/exa.js:226-240): write/overwrite the entry, then sort
all entries ascending by write time and delete the oldest beyond 50
(a stable sort, as JS `Array.prototype.sort` is). -/
def cacheWrite (store : CacheStore) (key data : String) (now : Nat) : CacheStore :=
  let updated := cacheUpdated store key data now
  let sorted := List.insertionSort byMtime updated
  if 50 < sorted.length then
    let doomed := (sorted.take (sorted.length - 50)).map Prod.fst
    updated.filter (fun e => e.1 ∉ doomed)
  else updated

/-- The pre-hash canonicalization of `cacheKey`, `parts.join("|")`
(src/exa.js:213-215). -/
def preHash (parts : List String) : String :=
  String.intercalate "|" parts

/-- The fingerprint `cacheKey` (src/exa.js:213-215): a digest of the joined parts; the md5
step is treated as an arbitrary function of the pre-hash string. -/
def cacheKey (digest : String → String) (parts : List String) : String :=
  digest (preHash parts)

/-- The upstream call's outcome for a given credential, as classified by
`main`'s catch (src/exa.js:753): HTTP 429 (whose error object may carry a
retry-after hint) versus any other failure. -/
inductive UpstreamOutcome where
  | success (payload : String)
  | rateLimited (retryAfterMs : Option Nat)
  | failure (msg : String)
deriving Repr, DecidableEq

/-- Caller configuration relevant to one dispatch: the cache-bypass flag,
the TTL and the request fingerprint (src/exa.js:388-397). -/
structure Invocation where
  noCache : Bool
  cacheTtl : Nat
  ck : String
deriving Repr, DecidableEq

/-- What one run of the `search` body did: returned a cached payload,
called upstream and succeeded, or called upstream and threw. -/
inductive SearchStep where
  | cacheHit (payload : String)
  | upstreamOk (payload : String) (store : CacheStore)
  | thrown (o : UpstreamOutcome)
deriving Repr, DecidableEq

/-- One run of the `search` body (src/exa.js:388-418): cache probe unless
bypassed, then the upstream call, then the cache write on success. -/
def runSearchOnce (inv : Invocation) (store : CacheStore) (now : Nat)
    (outcome : UpstreamOutcome) : SearchStep :=
  match (if inv.noCache then none else cacheRead store inv.ck inv.cacheTtl now) with
  | some payload => .cacheHit payload
  | none =>
      match outcome with
      | .success p =>
          .upstreamOk p (if inv.noCache then store else cacheWrite store inv.ck p now)
      | .rateLimited h => .thrown (.rateLimited h)
      | .failure m => .thrown (.failure m)

/-- Observable outcome of one `main` run (src/exa.js:693-788): the exit
path, the key indices actually used for upstream calls, the final
in-memory rotation state, the last state handed to `saveKeyState`
(`none` = never saved during this run), the cache store, and the rendered
payload. -/
structure DispatchOutcome where
  exitCode : Nat
  attempts : List Nat
  state : KeyState
  saved : Option KeyState
  store : CacheStore
  rendered : Option String
deriving Repr, DecidableEq

/-- The credential/cache/retry orchestration of `main` (src/exa.js:719-787),
specialized to a cached command such as `search`.  `n` is `keys.length`
and `upstream i` the outcome of calling the API with key `i`.  Note that
`recordRateLimit` is invoked without a retry-after argument, exactly as at
src/exa.js:754 and 774. -/
def dispatch (n : Nat) (s0 : KeyState) (inv : Invocation) (store0 : CacheStore)
    (now : Nat) (upstream : Nat → UpstreamOutcome) : DispatchOutcome :=
  match getNextKey n s0 now with
  | (none, s1) =>
      { exitCode := 2, attempts := [], state := s1, saved := none, store := store0,
        rendered := none }
  | (some keyIdx, s1) =>
      match runSearchOnce inv store0 now (upstream keyIdx) with
      | .cacheHit payload =>
          let s2 := recordSuccess s1 keyIdx
          { exitCode := 0, attempts := [], state := s2, saved := some s2, store := store0,
            rendered := some payload }
      | .upstreamOk payload store1 =>
          let s2 := recordSuccess s1 keyIdx
          { exitCode := 0, attempts := [keyIdx], state := s2, saved := some s2, store := store1,
            rendered := some payload }
      | .thrown (.failure _) =>
          { exitCode := 1, attempts := [keyIdx], state := s1, saved := none, store := store0,
            rendered := none }
      | .thrown (.success _) =>
          { exitCode := 1, attempts := [keyIdx], state := s1, saved := none, store := store0,
            rendered := none }
      | .thrown (.rateLimited _) =>
          let s2 := recordRateLimit s1 keyIdx now none
          if 1 < n then
            match getNextKey n s2 now with
            | (some retryIdx, s3) =>
                if retryIdx ≠ keyIdx then
                  match runSearchOnce inv store0 now (upstream retryIdx) with
                  | .cacheHit payload =>
                      let s4 := recordSuccess s3 retryIdx
                      { exitCode := 0, attempts := [keyIdx], state := s4, saved := some s4,
                        store := store0, rendered := some payload }
                  | .upstreamOk payload store1 =>
                      let s4 := recordSuccess s3 retryIdx
                      { exitCode := 0, attempts := [keyIdx, retryIdx], state := s4,
                        saved := some s4, store := store1, rendered := some payload }
                  | .thrown (.rateLimited _) =>
                      let s4 := recordRateLimit s3 retryIdx now none
                      { exitCode := 1, attempts := [keyIdx, retryIdx], state := s4,
                        saved := some s4, store := store0, rendered := none }
                  | .thrown (.failure _) =>
                      { exitCode := 1, attempts := [keyIdx, retryIdx], state := s3,
                        saved := some s3, store := store0, rendered := none }
                  | .thrown (.success _) =>
                      { exitCode := 1, attempts := [keyIdx, retryIdx], state := s3,
                        saved := some s3, store := store0, rendered := none }
                else
                  { exitCode := 1, attempts := [keyIdx], state := s3, saved := some s2,
                    store := store0, rendered := none }
            | (none, s3) =>
                { exitCode := 1, attempts := [keyIdx], state := s3, saved := some s2,
                  store := store0, rendered := none }
          else
            { exitCode := 1, attempts := [keyIdx], state := s2, saved := some s2,
              store := store0, rendered := none }

/-- JS `String.prototype.startsWith` with the one-character prefix `"-"`,
phrased over the character list so that it evaluates in the kernel. -/
def startsWithDash (s : String) : Bool :=
  match s.data with
  | [] => false
  | c :: _ => c = '-'

/-- JS `parseInt(s, 10)`: skip whitespace, optional sign, then the leading
run of decimal digits; `none` models `NaN`. -/
def jsParseInt (s : String) : Option Int :=
  let cs := s.data.dropWhile Char.isWhitespace
  let p : Bool × List Char :=
    match cs with
    | '-' :: r => (true, r)
    | '+' :: r => (false, r)
    | r => (false, r)
  let ds := p.2.takeWhile Char.isDigit
  if ds.isEmpty then none
  else
    let v : Nat := ds.foldl (fun a c => a * 10 + (c.toNat - 48)) 0
    some (if p.1 then -(v : Int) else (v : Int))

/-- JS `x || d` on a parsed integer: `NaN` or `0` falls back to `d`. -/
def jsOrInt (v : Option Int) (d : Int) : Int :=
  match v with
  | none => d
  | some x => if x = 0 then d else x

/-- JS `parseInt(...) || null` (src/exa.js:159): `NaN` or `0` becomes
`null`. -/
def jsOrNull (v : Option Int) : Option Int :=
  match v with
  | none => none
  | some x => if x = 0 then none else some x

/-- The command whitelist at src/exa.js:168. -/
def commandNames : List String :=
  ["search", "find", "content", "answer", "research", "status"]

/-- The option record built by `parseArgs` (defaults at src/exa.js:81-108).
`queryParts` is `opts.query` while parsing (a JS array); `query` is its
joined form from line 176.  String options that may end up `undefined` are
`Option String`; `maxAge` distinguishes never-set (`none`) from a
set-but-`NaN` parse (`some none`). -/
structure Opts where
  command : Option String := none
  queryParts : List String := []
  query : String := ""
  num : Int := 5
  content : Bool := false
  domain : Option String := none
  after : Option String := none
  before : Option String := none
  json : Bool := false
  noColor : Bool := false
  help : Bool := false
  version : Bool := false
  summary : Bool := false
  sources : Bool := true
  model : Option String := some "exa-research"
  type : Option String := some "instant"
  category : Option String := none
  maxAge : Option (Option Int) := none
  highlights : Option Int := none
  verbosity : Option String := none
  schema : Option String := none
  compact : Bool := false
  maxChars : Option Int := none
  fields : Option (List String) := none
  noCache : Bool := false
  cacheTtl : Int := 60
  tsv : Bool := false
  effectiveMaxChars : Int := 0
deriving Repr, DecidableEq

/-- The argument loop of `parseArgs` (src/exa.js:110-174); consuming
`args[++i]` is modelled by recursing on the remaining-argument list. -/
def parseLoop : Opts → List String → Opts
  | o, [] => o
  | o, arg :: rest =>
    if arg = "-h" ∨ arg = "--help" then parseLoop { o with help := true } rest
    else if arg = "--version" then parseLoop { o with version := true } rest
    else if arg = "-n" ∨ arg = "--num" then
      match rest with
      | v :: rest2 => parseLoop { o with num := jsOrInt (jsParseInt v) 5 } rest2
      | [] => { o with num := 5 }
    else if arg = "--content" then parseLoop { o with content := true } rest
    else if arg = "--domain" then
      match rest with
      | v :: rest2 => parseLoop { o with domain := some v } rest2
      | [] => { o with domain := none }
    else if arg = "--after" then
      match rest with
      | v :: rest2 => parseLoop { o with after := some v } rest2
      | [] => { o with after := none }
    else if arg = "--before" then
      match rest with
      | v :: rest2 => parseLoop { o with before := some v } rest2
      | [] => { o with before := none }
    else if arg = "--json" then parseLoop { o with json := true } rest
    else if arg = "--no-color" then parseLoop { o with noColor := true } rest
    else if arg = "--summary" then parseLoop { o with summary := true } rest
    else if arg = "--no-sources" then parseLoop { o with sources := false } rest
    else if arg = "--model" then
      match rest with
      | v :: rest2 => parseLoop { o with model := some v } rest2
      | [] => { o with model := none }
    else if arg = "--type" then
      match rest with
      | v :: rest2 => parseLoop { o with type := some v } rest2
      | [] => { o with type := none }
    else if arg = "--category" then
      match rest with
      | v :: rest2 => parseLoop { o with category := some v } rest2
      | [] => { o with category := none }
    else if arg = "--max-age" then
      match rest with
      | v :: rest2 => parseLoop { o with maxAge := some (jsParseInt v) } rest2
      | [] => { o with maxAge := some none }
    else if arg = "--highlights" then
      match rest with
      | next :: rest2 =>
          if next ≠ "" ∧ ¬ startsWithDash next then
            parseLoop { o with highlights := some (jsOrInt (jsParseInt next) 2000) } rest2
          else parseLoop { o with highlights := some 2000 } (next :: rest2)
      | [] => { o with highlights := some 2000 }
    else if arg = "--verbosity" then
      match rest with
      | v :: rest2 => parseLoop { o with verbosity := some v } rest2
      | [] => { o with verbosity := none }
    else if arg = "--schema" then
      match rest with
      | v :: rest2 => parseLoop { o with schema := some v } rest2
      | [] => { o with schema := none }
    else if arg = "--compact" then parseLoop { o with compact := true } rest
    else if arg = "--max-chars" then
      match rest with
      | v :: rest2 => parseLoop { o with maxChars := jsOrNull (jsParseInt v) } rest2
      | [] => { o with maxChars := none }
    else if arg = "--fields" then
      match rest with
      | v :: rest2 =>
          parseLoop
            { o with fields := some ((v.splitOn ",").map (fun s => s.trim.toLower)) } rest2
      | [] => o
    else if arg = "--no-cache" then parseLoop { o with noCache := true } rest
    else if arg = "--cache-ttl" then
      match rest with
      | v :: rest2 => parseLoop { o with cacheTtl := jsOrInt (jsParseInt v) 60 } rest2
      | [] => { o with cacheTtl := 60 }
    else if arg = "--tsv" then parseLoop { o with tsv := true } rest
    else if o.command.isNone ∧ arg ∈ commandNames then
      parseLoop { o with command := some arg } rest
    else if ¬ startsWithDash arg then
      parseLoop { o with queryParts := o.queryParts ++ [arg] } rest
    else parseLoop o rest

/-- The join `opts.query.join(" ")` (src/exa.js:176). -/
def joinQuery (l : List String) : String :=
  String.intercalate " " l

/-- The parser `parseArgs` (src/exa.js:80-183).  `stdoutIsTTY` models
`process.stdout.isTTY`: a piped stdout auto-enables compact mode. -/
def parseArgs (args : List String) (stdoutIsTTY : Bool) : Opts :=
  let o := parseLoop {} args
  let o := { o with query := joinQuery o.queryParts }
  let o := if stdoutIsTTY then o else { o with compact := true }
  { o with effectiveMaxChars :=
      match o.maxChars with
      | some x => x
      | none => if o.compact then 300 else 500 }

/-- The operation alphabet of the rotation manager: the three mutators a
run can apply to the Rotation State. -/
inductive RotOp where
  | next (keysLen now : Nat)
  | recSuccess (idx : Nat)
  | recRateLimit (idx now : Nat) (retryAfterMs : Option Nat)
deriving Repr, DecidableEq

/-- Apply one rotation-manager operation to a state. -/
def applyOp (s : KeyState) : RotOp → KeyState
  | .next n now => (getNextKey n s now).2
  | .recSuccess idx => recordSuccess s idx
  | .recRateLimit idx now h => recordRateLimit s idx now h

/-- Run a sequence of rotation-manager operations. -/
def runOps (s : KeyState) (ops : List RotOp) : KeyState :=
  ops.foldl applyOp s

/-- Every present record of the state satisfies `success ≤ requests`. -/
def SuccLeReq (s : KeyState) : Prop :=
  ∀ r ∈ s.keys, ∀ k : KeyRecord, r = some k → k.success ≤ k.requests

/-- All indices below `n` carry a record and the list is long enough. -/
def EnsuredAt (n : Nat) (ks : List (Option KeyRecord)) : Prop :=
  n ≤ ks.length ∧ ∀ i < n, (keyAt ks i).isSome

/-- The list of valid indices scanned by `getNextKey` (src/exa.js:289-293). -/
def validFilter (n : Nat) (ks : List (Option KeyRecord)) : List Nat :=
  (List.range n).filter (fun i => (recAt ks i).valid)

/-- The `available` list of `getNextKey` (src/exa.js:296-299): valid
indices whose cooldown is absent or expired. -/
def availFilter (n now : Nat) (ks : List (Option KeyRecord)) : List Nat :=
  (validFilter n ks).filter (isAvailable ks now)

/-- What the usage-balancing scan computes on the scan-ordered list of
available indices: starting from `b`, take each later element only when
its usage is strictly smaller — i.e. the first-encountered minimum. -/
def firstMinAux (usage : Nat → Nat) (b : Nat) : List Nat → Nat
  | [] => b
  | i :: rest =>
      if usage i < usage b then firstMinAux usage i rest else firstMinAux usage b rest

/-! ### Helper lemmas about the embedded operations -/

lemma keyAt_lt_length {ks : List (Option KeyRecord)} {i : Nat} {k : KeyRecord}
    (h : keyAt ks i = some k) : i < ks.length := by
  by_contra hlt
  rw [keyAt, List.getD_eq_getElem?_getD, List.getElem?_eq_none (by omega)] at h
  simp at h

lemma keyAt_set_self {ks : List (Option KeyRecord)} {i : Nat} (v : Option KeyRecord)
    (h : i < ks.length) : keyAt (ks.set i v) i = v := by
  rw [keyAt, List.getD_eq_getElem?_getD, List.getElem?_set_self (by simpa using h)]
  rfl

lemma keyAt_set_ne {ks : List (Option KeyRecord)} {i j : Nat} (v : Option KeyRecord)
    (h : i ≠ j) : keyAt (ks.set i v) j = keyAt ks j := by
  rw [keyAt, keyAt, List.getD_eq_getElem?_getD, List.getD_eq_getElem?_getD,
    List.getElem?_set_ne h]

lemma mem_of_keyAt_some {ks : List (Option KeyRecord)} {i : Nat} {k : KeyRecord}
    (h : keyAt ks i = some k) : some k ∈ ks := by
  have hi := keyAt_lt_length h
  rw [keyAt, List.getD_eq_getElem?_getD, List.getElem?_eq_getElem hi] at h
  simp only [Option.getD_some] at h
  exact h ▸ List.getElem_mem hi

/-- Every entry of `ensureKeys n ks` is an old entry, a fresh default
record, or absent. -/
lemma mem_ensureKeys {n : Nat} {ks : List (Option KeyRecord)} {r : Option KeyRecord}
    (h : r ∈ ensureKeys n ks) : r ∈ ks ∨ r = some defaultKeyRecord ∨ r = none := by
  rw [ensureKeys] at h
  obtain ⟨i, _, hi⟩ := List.mem_map.mp h
  split at hi
  · rename_i r' heq
    left
    exact hi ▸ mem_of_keyAt_some heq
  · split at hi
    · right; left; exact hi.symm
    · right; right; exact hi.symm

/-- Effect of `recordSuccess` at an existing record, seen through `keyAt`. -/
lemma keyAt_recordSuccess_self {s : KeyState} {idx : Nat} {k : KeyRecord}
    (h : keyAt s.keys idx = some k) :
    keyAt (recordSuccess s idx).keys idx =
      some { k with requests := k.requests + 1, success := k.success + 1,
                    cooldownUntil := none } := by
  rw [recordSuccess, h]
  exact keyAt_set_self _ (keyAt_lt_length h)

/-- Effect of `recordRateLimit` at an existing record, seen through `keyAt`. -/
lemma keyAt_recordRateLimit_self {s : KeyState} {idx now : Nat} {h : Option Nat}
    {k : KeyRecord} (hk : keyAt s.keys idx = some k) :
    keyAt (recordRateLimit s idx now h).keys idx =
      some { k with errors := k.errors + 1,
                    cooldownUntil := some (now + cooldownWindow h) } := by
  rw [recordRateLimit, hk]
  exact keyAt_set_self _ (keyAt_lt_length hk)

lemma length_ensureKeys (n : Nat) (ks : List (Option KeyRecord)) :
    (ensureKeys n ks).length = max n ks.length := by
  rw [ensureKeys, List.length_map, List.length_range]

lemma keyAt_ensureKeys_of_lt {n i : Nat} (h : i < n) (ks : List (Option KeyRecord)) :
    keyAt (ensureKeys n ks) i = some (recAt ks i) := by
  have hm : i < max n ks.length := lt_of_lt_of_le h (le_max_left _ _)
  rw [ensureKeys, keyAt, List.getD_eq_getElem?_getD, List.getElem?_map,
    List.getElem?_range hm]
  rcases hk : keyAt ks i with _ | r
  · simp only [Option.map_some', Option.getD_some, hk, if_pos h]
    rw [recAt, hk]
    rfl
  · simp only [Option.map_some', Option.getD_some, hk]
    rw [recAt, hk]
    rfl

lemma keyAt_ensureKeys_of_ge {n i : Nat} (h : n ≤ i) (ks : List (Option KeyRecord)) :
    keyAt (ensureKeys n ks) i = keyAt ks i := by
  by_cases hm : i < max n ks.length
  · rw [ensureKeys, keyAt, List.getD_eq_getElem?_getD, List.getElem?_map,
      List.getElem?_range hm]
    rcases hk : keyAt ks i with _ | r
    · simp only [Option.map_some', Option.getD_some, hk]
      rw [if_neg (by omega)]
    · simp only [Option.map_some', Option.getD_some, hk]
  · have hi : ks.length ≤ i := by omega
    rw [ensureKeys, keyAt, keyAt, List.getD_eq_getElem?_getD, List.getD_eq_getElem?_getD,
      List.getElem?_eq_none (by simpa using hm),
      List.getElem?_eq_none (by simpa using hi)]

/-- Reading an existing entry survives the ensure pass. -/
lemma keyAt_ensureKeys_of_some {n i : Nat} {ks : List (Option KeyRecord)} {k : KeyRecord}
    (h : keyAt ks i = some k) : keyAt (ensureKeys n ks) i = some k := by
  by_cases hn : i < n
  · rw [keyAt_ensureKeys_of_lt hn, recAt, h]
    rfl
  · rw [keyAt_ensureKeys_of_ge (by omega), h]

lemma ensuredAt_ensureKeys (n : Nat) (ks : List (Option KeyRecord)) :
    EnsuredAt n (ensureKeys n ks) := by
  refine ⟨by rw [length_ensureKeys]; omega, fun i hi => ?_⟩
  rw [keyAt_ensureKeys_of_lt hi]
  rfl

lemma ensuredAt_set {n idx : Nat} {ks : List (Option KeyRecord)} (h : EnsuredAt n ks)
    (k : KeyRecord) : EnsuredAt n (ks.set idx (some k)) := by
  refine ⟨by rw [List.length_set]; exact h.1, fun i hi => ?_⟩
  by_cases hij : idx = i
  · subst hij
    by_cases hl : idx < ks.length
    · rw [keyAt_set_self _ hl]
      rfl
    · exact absurd (lt_of_lt_of_le hi h.1) hl
  · rw [keyAt_set_ne _ hij]
    exact h.2 i hi

/-- Reading below the length is plain indexing. -/
lemma keyAt_eq_getElem {ks : List (Option KeyRecord)} {i : Nat} (h : i < ks.length) :
    keyAt ks i = ks[i] := by
  rw [keyAt, List.getD_eq_getElem?_getD, List.getElem?_eq_getElem h]
  rfl

/-- The ensure pass is the identity on a state that is already ensured. -/
lemma ensureKeys_eq_self {n : Nat} {ks : List (Option KeyRecord)} (h : EnsuredAt n ks) :
    ensureKeys n ks = ks := by
  have h1 := h.1
  apply List.ext_getElem?
  intro i
  rw [ensureKeys, List.getElem?_map]
  by_cases hi : i < ks.length
  · rw [List.getElem?_range (by omega : i < max n ks.length)]
    rcases hk : ks[i]? with _ | e
    · have := List.getElem?_eq_getElem hi
      rw [hk] at this
      cases this
    · have hke : keyAt ks i = e := by
        rw [keyAt, List.getD_eq_getElem?_getD, hk]
        rfl
      rcases e with _ | r
      · have hn : ¬ i < n := by
          intro hn
          have hs := h.2 i hn
          rw [hke] at hs
          simp at hs
        simp only [Option.map_some', hke, if_neg hn]
      · simp only [Option.map_some', hke]
  · rw [List.getElem?_eq_none (by omega : ks.length ≤ i),
      List.getElem?_eq_none (by rw [List.length_range]; omega :
        (List.range (max n ks.length)).length ≤ i)]
    rfl

/-- Whatever branch `getNextKey` takes, the keys of the returned state are
the ensured entries. -/
lemma getNextKey_snd_keys (n : Nat) (s : KeyState) (now : Nat) :
    ((getNextKey n s now).2).keys = ensureKeys n s.keys := by
  simp only [getNextKey]
  split
  · rfl
  · split <;> rfl

/-- When `getNextKey` selects an index, the returned state is the ensured
keys together with `currentIndex = (selected + 1) % n`. -/
lemma getNextKey_some_state {n : Nat} {s : KeyState} {now sel : Nat} {s' : KeyState}
    (h : getNextKey n s now = (some sel, s')) :
    s' = { currentIndex := (sel + 1) % n, keys := ensureKeys n s.keys } := by
  simp only [getNextKey] at h
  split at h
  · simp at h
  · split at h <;>
    · obtain ⟨h1, h2⟩ := Prod.mk.injEq .. ▸ h
      obtain rfl := Option.some.inj h1
      exact h2.symm

lemma recordRateLimit_currentIndex (s : KeyState) (idx now : Nat) (ra : Option Nat) :
    (recordRateLimit s idx now ra).currentIndex = s.currentIndex := by
  rw [recordRateLimit]
  split <;> rfl

lemma recordSuccess_currentIndex (s : KeyState) (idx : Nat) :
    (recordSuccess s idx).currentIndex = s.currentIndex := by
  rw [recordSuccess]
  split <;> rfl

lemma ensuredAt_recordRateLimit {n : Nat} {s : KeyState} (h : EnsuredAt n s.keys)
    (idx now : Nat) (ra : Option Nat) : EnsuredAt n (recordRateLimit s idx now ra).keys := by
  rw [recordRateLimit]
  split
  · exact h
  · exact ensuredAt_set h _

/-- Recording a rate limit does not change any validity flag. -/
lemma recAt_valid_recordRateLimit (s : KeyState) (idx now : Nat) (ra : Option Nat)
    (i : Nat) :
    (recAt (recordRateLimit s idx now ra).keys i).valid = (recAt s.keys i).valid := by
  rw [recordRateLimit]
  split
  · rfl
  · rename_i k hk
    dsimp only
    by_cases hij : idx = i
    · subst hij
      rw [recAt, keyAt_set_self _ (keyAt_lt_length hk), recAt, hk]
      rfl
    · rw [recAt, keyAt_set_ne _ hij, recAt]

/-- Reading away from the touched index is unchanged by `recordSuccess`. -/
lemma keyAt_recordSuccess_ne {s : KeyState} {idx i : Nat} (h : idx ≠ i) :
    keyAt (recordSuccess s idx).keys i = keyAt s.keys i := by
  rw [recordSuccess]
  split
  · rfl
  · exact keyAt_set_ne _ h

/-- Reading away from the touched index is unchanged by `recordRateLimit`. -/
lemma keyAt_recordRateLimit_ne {s : KeyState} {idx i now : Nat} {ra : Option Nat}
    (h : idx ≠ i) :
    keyAt (recordRateLimit s idx now ra).keys i = keyAt s.keys i := by
  rw [recordRateLimit]
  split
  · rfl
  · exact keyAt_set_ne _ h

lemma getNextKey_none_validFilter {n now : Nat} {s s' : KeyState}
    (h : getNextKey n s now = (none, s')) :
    validFilter n (ensureKeys n s.keys) = [] := by
  simp only [getNextKey] at h
  split at h
  · rename_i hc
    simpa [validFilter] using hc
  · split at h <;> simp at h

lemma getNextKey_some_validFilter {n now sel : Nat} {s s' : KeyState}
    (h : getNextKey n s now = (some sel, s')) :
    validFilter n (ensureKeys n s.keys) ≠ [] := by
  simp only [getNextKey] at h
  split at h
  · simp at h
  · rename_i hc
    intro he
    rw [validFilter] at he
    exact hc (by rw [he]; rfl)

/-- A fold that at each step keeps the accumulator or takes the current
list element stays inside `b :: l`. -/
lemma foldl_choice_mem (f : Nat → Nat → Nat) (hf : ∀ b i, f b i = i ∨ f b i = b) :
    ∀ (l : List Nat) (b : Nat), l.foldl f b ∈ b :: l := by
  intro l
  induction l with
  | nil => intro b; exact List.mem_singleton.mpr rfl
  | cons i l ih =>
      intro b
      rw [List.foldl_cons]
      rcases List.mem_cons.mp (ih (f b i)) with h2 | h2
      · rw [h2]
        rcases hf b i with h1 | h1
        · rw [h1]
          exact List.mem_cons_of_mem _ (List.mem_cons_self _ _)
        · rw [h1]
          exact List.mem_cons_self _ _
      · exact List.mem_cons_of_mem _ (List.mem_cons_of_mem _ h2)

lemma pickSoonestCooldown_mem (ks : List (Option KeyRecord)) {l : List Nat}
    (hl : l ≠ []) : pickSoonestCooldown ks l ∈ l := by
  cases l with
  | nil => exact absurd rfl hl
  | cons b rest =>
      rw [pickSoonestCooldown]
      exact foldl_choice_mem _
        (fun b i => by split
                       · exact Or.inl rfl
                       · exact Or.inr rfl) rest b

lemma pickStep_fst (ks : List (Option KeyRecord)) (av : List Nat) (n st : Nat)
    (acc : Nat × Option Nat) (o : Nat) :
    (pickStep ks av n st acc o).1 = acc.1 ∨ (pickStep ks av n st acc o).1 ∈ av := by
  rw [pickStep]
  dsimp only
  split
  · rename_i hin
    split
    · exact Or.inr hin
    · split
      · exact Or.inr hin
      · exact Or.inl rfl
  · exact Or.inl rfl

lemma foldl_pickStep_fst_mem (ks : List (Option KeyRecord)) (av : List Nat) (n st : Nat) :
    ∀ (offs : List Nat) (acc : Nat × Option Nat),
      (offs.foldl (pickStep ks av n st) acc).1 = acc.1 ∨
      (offs.foldl (pickStep ks av n st) acc).1 ∈ av := by
  intro offs
  induction offs with
  | nil => intro acc; exact Or.inl rfl
  | cons o offs ih =>
      intro acc
      rw [List.foldl_cons]
      rcases ih (pickStep ks av n st acc o) with h1 | h1
      · rw [h1]
        exact pickStep_fst ks av n st acc o
      · exact Or.inr h1

lemma pickByUsage_mem (ks : List (Option KeyRecord)) {av : List Nat} (n st : Nat)
    {a0 : Nat} (ha0 : a0 ∈ av) : pickByUsage ks av n st a0 ∈ av := by
  rw [pickByUsage]
  rcases foldl_pickStep_fst_mem ks av n st (List.range n) (a0, none) with h1 | h1
  · exact h1 ▸ ha0
  · exact h1

/-- A selected index is one of the valid indices. -/
lemma getNextKey_some_mem {n now sel : Nat} {s s' : KeyState}
    (h : getNextKey n s now = (some sel, s')) :
    sel ∈ validFilter n (ensureKeys n s.keys) := by
  rw [validFilter]
  simp only [getNextKey] at h
  split at h
  · simp at h
  · rename_i hc
    split at h
    · obtain ⟨h1, _⟩ := Prod.mk.injEq .. ▸ h
      obtain rfl := Option.some.inj h1
      exact pickSoonestCooldown_mem _ (fun he => hc (by rw [he]; rfl))
    · rename_i a0 rest heq
      obtain ⟨h1, _⟩ := Prod.mk.injEq .. ▸ h
      obtain rfl := Option.some.inj h1
      have hm := pickByUsage_mem (ensureKeys n s.keys) n (s.currentIndex % n)
        (List.mem_cons_self a0 rest)
      exact (List.mem_filter.mp (show _ ∈ List.filter _ _ by rw [heq]; exact hm)).1

/-- A selected index is below the pool size. -/
lemma getNextKey_some_lt {n now sel : Nat} {s s' : KeyState}
    (h : getNextKey n s now = (some sel, s')) : sel < n := by
  have hm := getNextKey_some_mem h
  rw [validFilter] at hm
  exact List.mem_range.mp (List.mem_filter.mp hm).1

/-- The selected index carries a record in the returned state. -/
lemma getNextKey_some_keyAt {n now sel : Nat} {s s' : KeyState}
    (h : getNextKey n s now = (some sel, s')) :
    keyAt s'.keys sel = some (recAt s.keys sel) := by
  rw [getNextKey_some_state h]
  exact keyAt_ensureKeys_of_lt (getNextKey_some_lt h) s.keys

/-- Selecting again right after a rate-limit recording, and getting the
same index back, does not change the state: the entries are already
ensured and `currentIndex` is already `(idx + 1) % n`. -/
lemma getNextKey_after_recordRateLimit_same {n now idx : Nat} {ra : Option Nat}
    {s0 s1 s3 : KeyState}
    (hsel : getNextKey n s0 now = (some idx, s1))
    (hsel2 : getNextKey n (recordRateLimit s1 idx now ra) now = (some idx, s3)) :
    s3 = recordRateLimit s1 idx now ra := by
  have h1 := getNextKey_some_state hsel
  have h3 := getNextKey_some_state hsel2
  have hkeys1 : s1.keys = ensureKeys n s0.keys := by rw [h1]
  have hens : EnsuredAt n (recordRateLimit s1 idx now ra).keys :=
    ensuredAt_recordRateLimit (hkeys1 ▸ ensuredAt_ensureKeys n s0.keys) idx now ra
  have hci : (recordRateLimit s1 idx now ra).currentIndex = (idx + 1) % n := by
    rw [recordRateLimit_currentIndex, h1]
  rw [h3, ensureKeys_eq_self hens, ← hci]

/-- Recording a rate limit does not change which indices are valid. -/
lemma validFilter_recordRateLimit (n : Nat) (s : KeyState) (idx now : Nat)
    (ra : Option Nat) :
    validFilter n (recordRateLimit s idx now ra).keys = validFilter n s.keys := by
  rw [validFilter, validFilter]
  exact List.filter_congr (fun i _ => by rw [recAt_valid_recordRateLimit])

/-! ### C1 — cache hits and the rotation state -/

/-- C1 counterexample: a warm, unexpired cache entry with caching enabled;
the run renders the cached payload and makes no upstream attempt, yet the
Rotation State after the invocation differs from the Rotation State before
it (the claim asserts they are equal). -/
theorem c1_counterexample :
    (dispatch 1 ⟨0, []⟩ ⟨false, 60, "k"⟩ [("k", ⟨0, "c"⟩)] 0
        (fun _ => .failure "x")).rendered = some "c" ∧
    (dispatch 1 ⟨0, []⟩ ⟨false, 60, "k"⟩ [("k", ⟨0, "c"⟩)] 0
        (fun _ => .failure "x")).attempts = [] ∧
    (dispatch 1 ⟨0, []⟩ ⟨false, 60, "k"⟩ [("k", ⟨0, "c"⟩)] 0
        (fun _ => .failure "x")).state ≠ (⟨0, []⟩ : KeyState) := by
  decide

/-- C1 amended: on a cache hit with caching enabled, the dispatcher renders
the cached payload and makes no upstream call, but credential selection has
already run and the selected credential's record is then updated as a
success (requests and successes incremented, cooldown cleared) and the
mutated state saved. -/
theorem c1_cache_hit_renders_but_selects
    (n : Nat) (s0 : KeyState) (inv : Invocation) (store0 : CacheStore) (now : Nat)
    (upstream : Nat → UpstreamOutcome) (keyIdx : Nat) (s1 : KeyState) (p : String)
    (hnc : inv.noCache = false)
    (hhit : cacheRead store0 inv.ck inv.cacheTtl now = some p)
    (hsel : getNextKey n s0 now = (some keyIdx, s1)) :
    dispatch n s0 inv store0 now upstream =
      { exitCode := 0, attempts := [], state := recordSuccess s1 keyIdx,
        saved := some (recordSuccess s1 keyIdx), store := store0, rendered := some p } := by
  unfold dispatch
  rw [hsel]
  unfold runSearchOnce
  rw [hnc]
  simp only [Bool.false_eq_true, if_false, hhit]

theorem c1_cache_hit_renders_but_selects_witness :
    dispatch 1 ⟨0, []⟩ ⟨false, 60, "k"⟩ [("k", ⟨0, "c"⟩)] 0 (fun _ => .failure "x") =
      { exitCode := 0, attempts := [],
        state := recordSuccess ⟨0, [some defaultKeyRecord]⟩ 0,
        saved := some (recordSuccess ⟨0, [some defaultKeyRecord]⟩ 0),
        store := [("k", ⟨0, "c"⟩)], rendered := some "c" } :=
  c1_cache_hit_renders_but_selects 1 ⟨0, []⟩ ⟨false, 60, "k"⟩ [("k", ⟨0, "c"⟩)] 0
    (fun _ => .failure "x") 0 ⟨0, [some defaultKeyRecord]⟩ "c" rfl (by decide) (by decide)

/-! ### C2 — what a rate limit records -/

/-- C2 counterexample: in the pool-[A, B] scenario (A rate-limited, retry
with B succeeds) the final Rotation State shows A with `requests = 0`, not
`requests = 1` as the claim asserts: `recordRateLimit` never increments
`requests`. -/
theorem c2_counterexample :
    (dispatch 2 ⟨0, []⟩ ⟨false, 60, "k"⟩ [] 1000
        (fun i => if i = 0 then .rateLimited none else .success "ok")).exitCode = 0 ∧
    (dispatch 2 ⟨0, []⟩ ⟨false, 60, "k"⟩ [] 1000
        (fun i => if i = 0 then .rateLimited none else .success "ok")).attempts = [0, 1] ∧
    (dispatch 2 ⟨0, []⟩ ⟨false, 60, "k"⟩ [] 1000
        (fun i => if i = 0 then .rateLimited none else .success "ok")).state.keys =
      [some { valid := true, cooldownUntil := some 61000, requests := 0, success := 0,
              errors := 1 },
       some { valid := true, cooldownUntil := none, requests := 1, success := 1,
              errors := 0 }] ∧
    ((keyAt (dispatch 2 ⟨0, []⟩ ⟨false, 60, "k"⟩ [] 1000
        (fun i => if i = 0 then .rateLimited none else .success "ok")).state.keys 0).map
      KeyRecord.requests ≠ some 1) := by
  decide

/-- C2 amended: a rate limit increments only the `errors` counter of the
selected record and sets its cooldown (`requests` is incremented only on
success), so the scenario pool = [A, B] with A rate-limited and B
succeeding ends with A `{requests 0, errors 1, cooldownUntil set}` and B
`{requests 1, successes 1}`. -/
theorem c2_rate_limit_updates (s : KeyState) (idx now : Nat) (h : Option Nat)
    (k : KeyRecord) (hk : keyAt s.keys idx = some k) :
    keyAt (recordRateLimit s idx now h).keys idx =
      some { k with errors := k.errors + 1,
                    cooldownUntil := some (now + cooldownWindow h) } ∧
    (dispatch 2 ⟨0, []⟩ ⟨false, 60, "k"⟩ [] 1000
        (fun i => if i = 0 then .rateLimited none else .success "ok")).state.keys =
      [some { valid := true, cooldownUntil := some 61000, requests := 0, success := 0,
              errors := 1 },
       some { valid := true, cooldownUntil := none, requests := 1, success := 1,
              errors := 0 }] :=
  ⟨keyAt_recordRateLimit_self hk, by decide⟩

theorem c2_rate_limit_updates_witness :
    keyAt (recordRateLimit ⟨0, [some defaultKeyRecord]⟩ 0 5 none).keys 0 =
      some { valid := true, cooldownUntil := some 60005, requests := 0, success := 0,
             errors := 1 } :=
  ((c2_rate_limit_updates ⟨0, [some defaultKeyRecord]⟩ 0 5 none defaultKeyRecord rfl).1).trans
    (by decide)

/-! ### C9 — fingerprint determinism and separator ambiguity -/

/-- C9 counterexample: the separator is the pipe character, which can occur
inside a field value, so the two distinct ordered field lists
`["a|b"]` and `["a", "b"]` canonicalize to the same pre-hash string (the
claim asserts this never happens). -/
theorem c9_counterexample :
    preHash ["a|b"] = preHash ["a", "b"] ∧ ["a|b"] ≠ ["a", "b"] := by
  constructor
  · rfl
  · decide

/-- C9 amended: the fingerprint is deterministic — equal part lists give
equal digests for any digest function — but the `"|"` join is not
injective: distinct ordered field lists whose values contain the separator
can share a pre-hash string and hence a digest. -/
theorem c9_fingerprint_deterministic_but_join_ambiguous :
    (∀ (digest : String → String) (parts parts' : List String),
        parts = parts' → cacheKey digest parts = cacheKey digest parts') ∧
    (∃ parts parts' : List String,
        parts ≠ parts' ∧ preHash parts = preHash parts') := by
  refine ⟨fun digest parts parts' h => by rw [h], ⟨["a|b"], ["a", "b"], by decide, rfl⟩⟩

theorem c9_fingerprint_witness :
    cacheKey (fun s => s) ["search", "q"] = cacheKey (fun s => s) ["search", "q"] :=
  (c9_fingerprint_deterministic_but_join_ambiguous.1 (fun s => s) ["search", "q"]
    ["search", "q"] rfl)

/-! ### C10 — there is no reset command -/

/-- C10: the repository's own documentation offers `exa reset` ("Clear
cooldowns and statistics"), but `parseArgs` recognizes only the six
commands in `commandNames`; `"reset"` is treated as query text, so `main`
exits with "No command specified" and no reset-equivalent operation
exists. -/
theorem c10_no_reset_command :
    (parseArgs ["reset"] true).command = none ∧
    (parseArgs ["reset"] true).query = "reset" ∧
    "reset" ∉ commandNames := by
  refine ⟨by decide, ?_, by decide⟩
  rfl

/-! ### C3 — counter invariants under the three operations -/

lemma succLeReq_recordSuccess {s : KeyState} (h : SuccLeReq s) (idx : Nat) :
    SuccLeReq (recordSuccess s idx) := by
  rw [recordSuccess]
  rcases hk : keyAt s.keys idx with _ | k
  · exact h
  · intro r hr k' hk'
    rcases List.mem_or_eq_of_mem_set hr with h1 | h1
    · exact h r h1 k' hk'
    · have hkk := h _ (mem_of_keyAt_some hk) k rfl
      subst h1
      cases hk'
      simpa using Nat.add_le_add_right hkk 1

lemma succLeReq_recordRateLimit {s : KeyState} (h : SuccLeReq s) (idx now : Nat)
    (ra : Option Nat) : SuccLeReq (recordRateLimit s idx now ra) := by
  rw [recordRateLimit]
  rcases hk : keyAt s.keys idx with _ | k
  · exact h
  · intro r hr k' hk'
    rcases List.mem_or_eq_of_mem_set hr with h1 | h1
    · exact h r h1 k' hk'
    · have hkk := h _ (mem_of_keyAt_some hk) k rfl
      subst h1
      cases hk'
      simpa using hkk

lemma succLeReq_getNextKey {s : KeyState} (h : SuccLeReq s) (n now : Nat) :
    SuccLeReq ((getNextKey n s now).2) := by
  intro r hr k hk
  rw [getNextKey_snd_keys] at hr
  rcases mem_ensureKeys hr with h1 | h1 | h1
  · exact h r h1 k hk
  · subst h1
    cases hk
    exact Nat.le_refl 0
  · subst h1
    cases hk

lemma succLeReq_runOps {s : KeyState} (h : SuccLeReq s) (ops : List RotOp) :
    SuccLeReq (runOps s ops) := by
  induction ops generalizing s with
  | nil => exact h
  | cons op ops ih =>
      refine ih ?_
      cases op with
      | next n now => exact succLeReq_getNextKey h n now
      | recSuccess idx => exact succLeReq_recordSuccess h idx
      | recRateLimit idx now ra => exact succLeReq_recordRateLimit h idx now ra

/-- C3 counterexample: from the default record, one `getNextKey` (which
creates the record) followed by one `recordRateLimit` yields
`errors = 1 > requests = 0`, violating the claimed invariant
`errors ≤ requests` (which `¬ (1 ≤ 0)` makes explicit). -/
theorem c3_counterexample :
    keyAt (runOps ⟨0, []⟩ [.next 1 0, .recRateLimit 0 0 none]).keys 0 =
      some { valid := true, cooldownUntil := some 60000, requests := 0, success := 0,
             errors := 1 } ∧
    ¬ ((1 : Nat) ≤ 0) := by
  decide

/-- C3 amended: for every Rotation Record reachable from the default
records by any sequence of `getNextKey`, `recordSuccess` and
`recordRateLimit`, the invariant `successes ≤ requests` holds (the other
claimed half, `errors ≤ requests`, fails — see the counterexample). -/
theorem c3_success_le_requests (m : Nat) (ops : List RotOp) (i : Nat) (k : KeyRecord)
    (h : keyAt (runOps ⟨0, List.replicate m (some defaultKeyRecord)⟩ ops).keys i = some k) :
    k.success ≤ k.requests := by
  have h0 : SuccLeReq ⟨0, List.replicate m (some defaultKeyRecord)⟩ := by
    intro r hr k' hk'
    have := List.eq_of_mem_replicate hr
    subst this
    cases hk'
    exact Nat.le_refl 0
  exact succLeReq_runOps h0 ops _ (mem_of_keyAt_some h) k rfl

theorem c3_success_le_requests_witness :
    keyAt (runOps ⟨0, List.replicate 2 (some defaultKeyRecord)⟩
        [.next 2 0, .recSuccess 0, .recRateLimit 1 0 none]).keys 0 =
      some { valid := true, cooldownUntil := none, requests := 1, success := 1,
             errors := 0 } ∧
    (1 : Nat) ≤ 1 :=
  ⟨by decide,
    c3_success_le_requests 2 [.next 2 0, .recSuccess 0, .recRateLimit 1 0 none] 0
      { valid := true, cooldownUntil := none, requests := 1, success := 1, errors := 0 }
      (by decide)⟩

/-! ### C4 — persistence on failing paths -/

/-- C4 counterexample: a non-rate-limit upstream failure propagates
(exit 1) with nothing ever handed to `saveKeyState`, although the
in-memory Rotation State was mutated by credential selection. -/
theorem c4_counterexample :
    (dispatch 2 ⟨0, []⟩ ⟨true, 60, "k"⟩ [] 0 (fun _ => .failure "boom")).exitCode = 1 ∧
    (dispatch 2 ⟨0, []⟩ ⟨true, 60, "k"⟩ [] 0 (fun _ => .failure "boom")).saved = none ∧
    (dispatch 2 ⟨0, []⟩ ⟨true, 60, "k"⟩ [] 0 (fun _ => .failure "boom")).state ≠
      (⟨0, []⟩ : KeyState) := by
  decide

/-- C4 amended: on every rate-limited failing path the final in-memory
Rotation State (with all mutations) is handed to `saveKeyState` before the
failure propagates; but on a non-rate-limit upstream failure nothing is
saved at all and the failure propagates with the selection mutations only
in memory. -/
theorem c4_saved_on_rate_limit_not_on_other_failure
    (n : Nat) (s0 : KeyState) (inv : Invocation) (store0 : CacheStore) (now : Nat)
    (upstream : Nat → UpstreamOutcome) (keyIdx : Nat) (s1 : KeyState)
    (hsel : getNextKey n s0 now = (some keyIdx, s1)) :
    (∀ hint, runSearchOnce inv store0 now (upstream keyIdx) = .thrown (.rateLimited hint) →
      (dispatch n s0 inv store0 now upstream).exitCode = 1 →
      (dispatch n s0 inv store0 now upstream).saved =
        some (dispatch n s0 inv store0 now upstream).state) ∧
    (∀ msg, runSearchOnce inv store0 now (upstream keyIdx) = .thrown (.failure msg) →
      (dispatch n s0 inv store0 now upstream).saved = none ∧
      (dispatch n s0 inv store0 now upstream).exitCode = 1 ∧
      (dispatch n s0 inv store0 now upstream).state = s1) := by
  have hkeys1 : s1.keys = ensureKeys n s0.keys := by rw [getNextKey_some_state hsel]
  constructor
  · intro hint hrl
    simp only [dispatch, hsel, hrl]
    split
    · rename_i hn
      split
      · rename_i retryIdx s3 heq2
        split
        · rename_i hne
          split <;> intro hexit
          · exact absurd hexit (by simp)
          · exact absurd hexit (by simp)
          · rfl
          · rfl
          · rfl
        · rename_i hne
          intro _
          have hri : retryIdx = keyIdx := by omega
          subst hri
          rw [getNextKey_after_recordRateLimit_same hsel heq2]
      · rename_i s3 heq2
        intro _
        have hens : EnsuredAt n (recordRateLimit s1 keyIdx now none).keys :=
          ensuredAt_recordRateLimit (hkeys1 ▸ ensuredAt_ensureKeys n s0.keys) keyIdx now none
        have hvf := getNextKey_none_validFilter heq2
        rw [ensureKeys_eq_self hens, validFilter_recordRateLimit, hkeys1] at hvf
        exact absurd hvf (getNextKey_some_validFilter hsel)
    · intro _
      rfl
  · intro msg hfail
    simp only [dispatch, hsel, hfail]
    exact ⟨trivial, trivial, trivial⟩

theorem c4_saved_on_rate_limit_not_on_other_failure_witness :
    (dispatch 2 ⟨0, []⟩ ⟨true, 60, "k"⟩ [] 0 (fun _ => .failure "boom")).saved = none ∧
    (dispatch 2 ⟨0, []⟩ ⟨true, 60, "k"⟩ [] 0 (fun _ => .failure "boom")).exitCode = 1 ∧
    (dispatch 2 ⟨0, []⟩ ⟨true, 60, "k"⟩ [] 0 (fun _ => .failure "boom")).state =
      ⟨1, [some defaultKeyRecord, some defaultKeyRecord]⟩ :=
  (c4_saved_on_rate_limit_not_on_other_failure 2 ⟨0, []⟩ ⟨true, 60, "k"⟩ [] 0
    (fun _ => .failure "boom") 0 ⟨1, [some defaultKeyRecord, some defaultKeyRecord]⟩
    (by decide)).2 "boom" (by decide)

/-! ### C5 — the retry-after hint is never applied -/

/-- C5 counterexample: the upstream rate-limit failure carries a
retry-after hint of 5000 ms, yet the cooldown written is
`now + 60000` (the fixed default), not `now + 5000` as the claim
asserts: `main` calls `recordRateLimit` without the hint. -/
theorem c5_counterexample :
    keyAt (dispatch 1 ⟨0, []⟩ ⟨true, 60, "k"⟩ [] 100
        (fun _ => .rateLimited (some 5000))).state.keys 0 =
      some { valid := true, cooldownUntil := some 60100, requests := 0, success := 0,
             errors := 1 } ∧
    (60100 : Nat) ≠ 100 + 5000 := by
  decide

/-- C5 amended: whenever the dispatcher records a rate limit for the
selected credential, the cooldown window applied is always the fixed
default `DEFAULT_COOLDOWN_MS`, whatever retry-after hint the upstream
failure carried — the dispatcher never passes the hint to
`recordRateLimit`. -/
theorem c5_cooldown_is_always_default
    (n : Nat) (s0 : KeyState) (inv : Invocation) (store0 : CacheStore) (now : Nat)
    (upstream : Nat → UpstreamOutcome) (keyIdx : Nat) (s1 : KeyState) (hint : Option Nat)
    (hsel : getNextKey n s0 now = (some keyIdx, s1))
    (hrl : runSearchOnce inv store0 now (upstream keyIdx) = .thrown (.rateLimited hint)) :
    keyAt (dispatch n s0 inv store0 now upstream).state.keys keyIdx =
      some { recAt s0.keys keyIdx with
             errors := (recAt s0.keys keyIdx).errors + 1,
             cooldownUntil := some (now + DEFAULT_COOLDOWN_MS) } := by
  have hk1 : keyAt s1.keys keyIdx = some (recAt s0.keys keyIdx) :=
    getNextKey_some_keyAt hsel
  have hkeys1 : s1.keys = ensureKeys n s0.keys := by rw [getNextKey_some_state hsel]
  have hk2 : keyAt (recordRateLimit s1 keyIdx now none).keys keyIdx =
      some { recAt s0.keys keyIdx with
             errors := (recAt s0.keys keyIdx).errors + 1,
             cooldownUntil := some (now + DEFAULT_COOLDOWN_MS) } :=
    keyAt_recordRateLimit_self hk1
  simp only [dispatch, hsel, hrl]
  split
  · rename_i hn
    split
    · rename_i retryIdx s3 heq2
      have hk3 : keyAt s3.keys keyIdx =
          some { recAt s0.keys keyIdx with
                 errors := (recAt s0.keys keyIdx).errors + 1,
                 cooldownUntil := some (now + DEFAULT_COOLDOWN_MS) } := by
        rw [getNextKey_some_state heq2]
        exact keyAt_ensureKeys_of_some hk2
      split
      · rename_i hne
        split
        · exact (keyAt_recordSuccess_ne hne).trans hk3
        · exact (keyAt_recordSuccess_ne hne).trans hk3
        · exact (keyAt_recordRateLimit_ne hne).trans hk3
        · exact hk3
        · exact hk3
      · rename_i hne
        have hri : retryIdx = keyIdx := by omega
        subst hri
        rw [getNextKey_after_recordRateLimit_same hsel heq2]
        exact hk2
    · rename_i s3 heq2
      have hens : EnsuredAt n (recordRateLimit s1 keyIdx now none).keys :=
        ensuredAt_recordRateLimit (hkeys1 ▸ ensuredAt_ensureKeys n s0.keys) keyIdx now none
      have hvf := getNextKey_none_validFilter heq2
      rw [ensureKeys_eq_self hens, validFilter_recordRateLimit, hkeys1] at hvf
      exact absurd hvf (getNextKey_some_validFilter hsel)
  · exact hk2

theorem c5_cooldown_is_always_default_witness :
    keyAt (dispatch 1 ⟨0, []⟩ ⟨true, 60, "k"⟩ [] 100
        (fun _ => .rateLimited (some 5000))).state.keys 0 =
      some { valid := true, cooldownUntil := some 60100, requests := 0, success := 0,
             errors := 1 } :=
  (c5_cooldown_is_always_default 1 ⟨0, []⟩ ⟨true, 60, "k"⟩ [] 100
    (fun _ => .rateLimited (some 5000)) 0 ⟨0, [some defaultKeyRecord]⟩ (some 5000)
    (by decide) (by decide)).trans (by decide)

/-! ### C6 — at most two attempts, retry on a different key -/

/-- A `runSearchOnce` that reports upstream success really called the
upstream with that outcome. -/
lemma runSearchOnce_upstreamOk {inv : Invocation} {store store' : CacheStore} {now : Nat}
    {o : UpstreamOutcome} {p : String}
    (h : runSearchOnce inv store now o = .upstreamOk p store') : o = .success p := by
  rw [runSearchOnce.eq_def] at h
  split at h
  · cases h
  · split at h
    · rename_i q
      obtain ⟨h1, _⟩ := SearchStep.upstreamOk.injEq .. ▸ h
      rw [h1]
    · cases h
    · cases h

/-- C6: every dispatch makes at most two upstream attempts; when there are
two, the retry was taken with the pool larger than one and a credential
different from the first attempt's, and a rate limit on the retry makes
the operation fail (exit 1) — there is never a third attempt. -/
theorem c6_bounded_retry
    (n : Nat) (s0 : KeyState) (inv : Invocation) (store0 : CacheStore) (now : Nat)
    (upstream : Nat → UpstreamOutcome) :
    (dispatch n s0 inv store0 now upstream).attempts.length ≤ 2 ∧
    (∀ a b, (dispatch n s0 inv store0 now upstream).attempts = [a, b] →
      a ≠ b ∧ 1 < n ∧
      (∀ h, upstream b = .rateLimited h →
        (dispatch n s0 inv store0 now upstream).exitCode = 1)) := by
  constructor
  · simp only [dispatch]
    split
    · simp
    · split
      · simp
      · simp
      · simp
      · simp
      · split
        · split
          · split
            · split <;> simp
            · simp
          · simp
        · simp
  · simp only [dispatch]
    split
    · intro a b hab
      simp at hab
    · rename_i keyIdx s1 hsel
      split
      · intro a b hab
        simp at hab
      · intro a b hab
        simp at hab
      · intro a b hab
        simp at hab
      · intro a b hab
        simp at hab
      · split
        · rename_i hn
          split
          · rename_i retryIdx s3 heq2
            split
            · rename_i hne
              split
              · intro a b hab
                simp at hab
              · rename_i p store1 heq3
                intro a b hab
                obtain ⟨rfl, rfl, -⟩ := List.cons.injEq .. ▸ hab
                refine ⟨fun e => hne e.symm, hn, fun h hup => ?_⟩
                rw [runSearchOnce_upstreamOk heq3] at hup
                cases hup
              · intro a b hab
                obtain ⟨rfl, rfl, -⟩ := List.cons.injEq .. ▸ hab
                exact ⟨fun e => hne e.symm, hn, fun h hup => rfl⟩
              · intro a b hab
                obtain ⟨rfl, rfl, -⟩ := List.cons.injEq .. ▸ hab
                exact ⟨fun e => hne e.symm, hn, fun h hup => rfl⟩
              · intro a b hab
                obtain ⟨rfl, rfl, -⟩ := List.cons.injEq .. ▸ hab
                exact ⟨fun e => hne e.symm, hn, fun h hup => rfl⟩
            · intro a b hab
              simp at hab
          · intro a b hab
            simp at hab
        · intro a b hab
          simp at hab

theorem c6_bounded_retry_witness :
    (dispatch 2 ⟨0, []⟩ ⟨true, 60, "k"⟩ [] 0
        (fun _ => .rateLimited none)).attempts = [0, 1] ∧
    (0 : Nat) ≠ 1 ∧ 1 < 2 ∧
    (dispatch 2 ⟨0, []⟩ ⟨true, 60, "k"⟩ [] 0 (fun _ => .rateLimited none)).exitCode = 1 :=
  have hattempts : (dispatch 2 ⟨0, []⟩ ⟨true, 60, "k"⟩ [] 0
      (fun _ => .rateLimited none)).attempts = [0, 1] := by decide
  have hc := (c6_bounded_retry 2 ⟨0, []⟩ ⟨true, 60, "k"⟩ [] 0
    (fun _ => .rateLimited none)).2 0 1 hattempts
  ⟨hattempts, hc.1, hc.2.1, hc.2.2 none (by decide)⟩


/-! ### C7 — the selection policy of getNextKey -/

/-- Every index below `n` is visited by the circular scan. -/
lemma exists_offset {n start i : Nat} (hi : i < n) :
    ∃ o < n, (start + o) % n = i := by
  have hn0 : 0 < n := by omega
  have ha : start % n < n := Nat.mod_lt _ hn0
  refine ⟨(i + n - start % n) % n, Nat.mod_lt _ hn0, ?_⟩
  have hd := Nat.div_add_mod start n
  have h2 : start + (i + n - start % n) = i + n + n * (start / n) := by omega
  rw [Nat.add_mod_mod, h2, Nat.add_mul_mod_self_left, Nat.add_mod_right,
    Nat.mod_eq_of_lt hi]

/-- Inverting a filter around one produced element. -/
lemma filter_eq_append_cons {α : Type} (p : α → Bool) :
    ∀ {L pre post : List α} {x : α}, L.filter p = pre ++ x :: post →
      ∃ L1 L2, L = L1 ++ x :: L2 ∧ L1.filter p = pre ∧ L2.filter p = post := by
  intro L
  induction L with
  | nil =>
      intro pre post x h
      rw [List.filter_nil] at h
      exact absurd h.symm (List.append_ne_nil_of_right_ne_nil _ (by simp))
  | cons y L ih =>
      intro pre post x h
      rw [List.filter_cons] at h
      split at h
      · rename_i hy
        cases pre with
        | nil =>
            obtain ⟨rfl, hpost⟩ := List.cons.injEq .. ▸ h
            exact ⟨[], L, rfl, rfl, hpost⟩
        | cons z pre' =>
            obtain ⟨rfl, h2⟩ := List.cons.injEq .. ▸ h
            obtain ⟨L1, L2, rfl, hf1, hf2⟩ := ih h2
            exact ⟨y :: L1, L2, rfl, by rw [List.filter_cons, if_pos hy, hf1], hf2⟩
      · rename_i hy
        obtain ⟨L1, L2, rfl, hf1, hf2⟩ := ih h
        exact ⟨y :: L1, L2, rfl, by rw [List.filter_cons, if_neg hy, hf1], hf2⟩

/-- Once the scan holds a best element, folding the remaining offsets
computes the first-encountered minimum over the later available visits. -/
lemma foldl_pickStep_some (ks : List (Option KeyRecord)) (A : List Nat) (n start : Nat) :
    ∀ (offs : List Nat) (b : Nat),
      offs.foldl (pickStep ks A n start) (b, some ((recAt ks b).requests)) =
        (firstMinAux (fun i => (recAt ks i).requests) b
            ((offs.map (fun o => (start + o) % n)).filter (fun i => decide (i ∈ A))),
         some ((recAt ks (firstMinAux (fun i => (recAt ks i).requests) b
            ((offs.map (fun o => (start + o) % n)).filter
              (fun i => decide (i ∈ A))))).requests)) := by
  intro offs
  induction offs with
  | nil => intro b; rfl
  | cons o offs ih =>
      intro b
      rw [List.foldl_cons, List.map_cons, List.filter_cons]
      by_cases hin : (start + o) % n ∈ A
      · rw [if_pos (by simpa using hin)]
        rw [pickStep]
        dsimp only
        rw [if_pos hin]
        by_cases hlt : (recAt ks ((start + o) % n)).requests < (recAt ks b).requests
        · rw [if_pos hlt, firstMinAux, if_pos hlt]
          exact ih _
        · rw [if_neg hlt, firstMinAux, if_neg hlt]
          exact ih b
      · rw [if_neg (by simpa using hin), pickStep]
        dsimp only
        rw [if_neg hin]
        exact ih b

/-- The whole scan from the JS initial accumulator (`available[0]`,
`Infinity`): the result is `available[0]` when no visit matches, else the
first-encountered minimum over the scan-ordered available visits. -/
lemma foldl_pickStep_none (ks : List (Option KeyRecord)) (A : List Nat) (n start : Nat) :
    ∀ (offs : List Nat) (b : Nat),
      (offs.foldl (pickStep ks A n start) (b, none)).1 =
        match (offs.map (fun o => (start + o) % n)).filter (fun i => decide (i ∈ A)) with
        | [] => b
        | m :: M' => firstMinAux (fun i => (recAt ks i).requests) m M' := by
  intro offs
  induction offs with
  | nil => intro b; rfl
  | cons o offs ih =>
      intro b
      rw [List.foldl_cons, List.map_cons, List.filter_cons]
      by_cases hin : (start + o) % n ∈ A
      · rw [if_pos (by simpa using hin)]
        rw [pickStep]
        dsimp only
        rw [if_pos hin]
        rw [foldl_pickStep_some]
      · rw [if_neg (by simpa using hin), pickStep]
        dsimp only
        rw [if_neg hin]
        exact ih b

/-- The function `firstMinAux` picks the first element of `b :: M` achieving the
minimum: everything before it is strictly larger, everything in the list
is at least it. -/
lemma firstMinAux_spec (usage : Nat → Nat) :
    ∀ (M : List Nat) (b : Nat),
      ∃ pre post, b :: M = pre ++ firstMinAux usage b M :: post ∧
        (∀ j ∈ pre, usage (firstMinAux usage b M) < usage j) ∧
        (∀ j ∈ b :: M, usage (firstMinAux usage b M) ≤ usage j) := by
  intro M
  induction M with
  | nil =>
      intro b
      refine ⟨[], [], rfl, by simp, ?_⟩
      intro j hj
      rcases List.mem_singleton.mp hj with rfl
      exact Nat.le_refl _
  | cons i M ih =>
      intro b
      rw [firstMinAux]
      by_cases hib : usage i < usage b
      · rw [if_pos hib]
        obtain ⟨pre, post, hdec, hpre, hle⟩ := ih i
        refine ⟨b :: pre, post, by rw [List.cons_append, ← hdec], ?_, ?_⟩
        · intro j hj
          rcases List.mem_cons.mp hj with rfl | hj
          · exact lt_of_le_of_lt (hle i (List.mem_cons_self _ _)) hib
          · exact hpre j hj
        · intro j hj
          rcases List.mem_cons.mp hj with rfl | hj
          · exact le_of_lt (lt_of_le_of_lt (hle i (List.mem_cons_self _ _)) hib)
          · exact hle j hj
      · rw [if_neg hib]
        obtain ⟨pre, post, hdec, hpre, hle⟩ := ih b
        cases pre with
        | nil =>
            obtain ⟨hb, hpost⟩ := List.cons.injEq .. ▸ hdec
            refine ⟨[], i :: M, by rw [List.nil_append, ← hb], by simp, ?_⟩
            intro j hj
            rcases List.mem_cons.mp hj with rfl | hj
            · rw [← hb]
            · rcases List.mem_cons.mp hj with rfl | hj
              · rw [← hb]
                exact le_of_not_lt hib
              · exact hle j (List.mem_cons_of_mem _ hj)
        | cons z pre' =>
            obtain ⟨hz, hM⟩ := List.cons.injEq .. ▸ hdec
            have hrb : usage (firstMinAux usage b M) < usage b := by
              have := hpre z (List.mem_cons_self _ _)
              rw [← hz] at this
              exact this
            refine ⟨b :: i :: pre', post, ?_, ?_, ?_⟩
            · rw [List.cons_append, List.cons_append, ← List.append_eq, ← hM]
            · intro j hj
              rcases List.mem_cons.mp hj with rfl | hj
              · exact hrb
              · rcases List.mem_cons.mp hj with rfl | hj
                · exact lt_of_lt_of_le hrb (le_of_not_lt hib)
                · exact hpre j (List.mem_cons_of_mem _ hj)
            · intro j hj
              rcases List.mem_cons.mp hj with rfl | hj
              · exact hle _ (List.mem_cons_self _ _)
              · rcases List.mem_cons.mp hj with rfl | hj
                · exact le_trans (hle _ (List.mem_cons_self _ _)) (le_of_not_lt hib)
                · exact hle j (List.mem_cons_of_mem _ hj)

/-- C7: whenever at least one valid credential is off cooldown,
`getNextKey` selects, among the available indices, the one with the lowest
`requests` counter that is encountered first when scanning forward
circularly from `currentIndex % poolSize`; and — unconditionally — in
every selecting branch (the all-on-cooldown fallback included) the
returned state has `currentIndex = (selected + 1) % poolSize`. -/
theorem c7_getNextKey_selects_first_lowest_usage
    (n now : Nat) (s : KeyState) :
    (availFilter n now (ensureKeys n s.keys) ≠ [] →
     ∃ sel s', getNextKey n s now = (some sel, s') ∧
      sel ∈ availFilter n now (ensureKeys n s.keys) ∧
      (∃ o < n, sel = (s.currentIndex % n + o) % n ∧
        (∀ o' < n,
          (s.currentIndex % n + o') % n ∈ availFilter n now (ensureKeys n s.keys) →
          (recAt (ensureKeys n s.keys) sel).requests ≤
            (recAt (ensureKeys n s.keys) ((s.currentIndex % n + o') % n)).requests) ∧
        (∀ o' < o,
          (s.currentIndex % n + o') % n ∈ availFilter n now (ensureKeys n s.keys) →
          (recAt (ensureKeys n s.keys) sel).requests <
            (recAt (ensureKeys n s.keys) ((s.currentIndex % n + o') % n)).requests)) ∧
      s'.currentIndex = (sel + 1) % n) ∧
    (∀ sel' s'', getNextKey n s now = (some sel', s'') →
      s''.currentIndex = (sel' + 1) % n) := by
  refine ⟨fun hA => ?_, fun sel' s'' h => by rw [getNextKey_some_state h]⟩
  obtain ⟨a0, rest, hAeq⟩ : ∃ a0 rest,
      availFilter n now (ensureKeys n s.keys) = a0 :: rest := by
    rcases hAc : availFilter n now (ensureKeys n s.keys) with _ | ⟨a0, rest⟩
    · exact absurd hAc hA
    · exact ⟨a0, rest, rfl⟩
  have hAeq' : (validFilter n (ensureKeys n s.keys)).filter
      (isAvailable (ensureKeys n s.keys) now) = a0 :: rest := by
    rw [← availFilter]
    exact hAeq
  have hVne : ((List.range n).filter
      (fun i => (recAt (ensureKeys n s.keys) i).valid)).isEmpty ≠ true := by
    intro he
    rw [List.isEmpty_iff] at he
    have hv : validFilter n (ensureKeys n s.keys) = [] := by
      rw [validFilter]
      exact he
    rw [hv] at hAeq'
    simp at hAeq'
  have hgk : getNextKey n s now =
      (some (pickByUsage (ensureKeys n s.keys) (a0 :: rest) n (s.currentIndex % n) a0),
       { currentIndex :=
           (pickByUsage (ensureKeys n s.keys) (a0 :: rest) n (s.currentIndex % n) a0 + 1) % n,
         keys := ensureKeys n s.keys }) := by
    simp only [getNextKey]
    rw [if_neg hVne]
    rw [validFilter] at hAeq'
    rw [hAeq']
  have ha0A : a0 ∈ availFilter n now (ensureKeys n s.keys) := by
    rw [hAeq]
    exact List.mem_cons_self _ _
  have ha0n : a0 < n := by
    rw [availFilter] at ha0A
    have h1 := (List.mem_filter.mp ha0A).1
    rw [validFilter] at h1
    exact List.mem_range.mp (List.mem_filter.mp h1).1
  obtain ⟨oa, hoa, hoaeq⟩ := @exists_offset n (s.currentIndex % n) a0 ha0n
  have ha0M : a0 ∈ ((List.range n).map (fun o => (s.currentIndex % n + o) % n)).filter
      (fun i => decide (i ∈ a0 :: rest)) :=
    List.mem_filter.mpr
      ⟨List.mem_map.mpr ⟨oa, List.mem_range.mpr hoa, hoaeq⟩, by simp⟩
  rcases hMc : ((List.range n).map (fun o => (s.currentIndex % n + o) % n)).filter
      (fun i => decide (i ∈ a0 :: rest)) with _ | ⟨m, M'⟩
  · rw [hMc] at ha0M
    simp at ha0M
  · have hselEq : pickByUsage (ensureKeys n s.keys) (a0 :: rest) n
        (s.currentIndex % n) a0 =
        firstMinAux (fun i => (recAt (ensureKeys n s.keys) i).requests) m M' := by
      rw [pickByUsage, foldl_pickStep_none, hMc]
    obtain ⟨pre, post, hdec, hpre, hle⟩ :=
      firstMinAux_spec (fun i => (recAt (ensureKeys n s.keys) i).requests) M' m
    have hdec' : ((List.range n).map (fun o => (s.currentIndex % n + o) % n)).filter
        (fun i => decide (i ∈ a0 :: rest)) =
        pre ++ firstMinAux (fun i => (recAt (ensureKeys n s.keys) i).requests) m M'
          :: post := by
      rw [hMc]
      exact hdec
    obtain ⟨L1, L2, hL, hf1, hf2⟩ := filter_eq_append_cons _ hdec'
    have hLlen : ((List.range n).map (fun o => (s.currentIndex % n + o) % n)).length
        = n := by
      rw [List.length_map, List.length_range]
    have ho : L1.length < n := by
      have hlen := congrArg List.length hL
      rw [hLlen, List.length_append, List.length_cons] at hlen
      omega
    have hgetL : ((List.range n).map
        (fun o => (s.currentIndex % n + o) % n))[L1.length]? =
        some ((s.currentIndex % n + L1.length) % n) := by
      rw [List.getElem?_map, List.getElem?_range ho]
      rfl
    have hgetR : ((List.range n).map
        (fun o => (s.currentIndex % n + o) % n))[L1.length]? =
        some (firstMinAux (fun i => (recAt (ensureKeys n s.keys) i).requests) m M') := by
      rw [hL, List.getElem?_append_right (Nat.le_refl _), Nat.sub_self,
        List.getElem?_cons_zero]
    have hselo : firstMinAux (fun i => (recAt (ensureKeys n s.keys) i).requests) m M' =
        (s.currentIndex % n + L1.length) % n :=
      Option.some.inj (hgetR.symm.trans hgetL)
    have hL1 : L1 = (List.range L1.length).map
        (fun o => (s.currentIndex % n + o) % n) := by
      have h1 : ((List.range n).map
          (fun o => (s.currentIndex % n + o) % n)).take L1.length = L1 := by
        rw [hL]
        exact List.take_left L1 _
      conv_lhs => rw [← h1]
      rw [(List.map_take _ _ _).symm, List.take_range, Nat.min_eq_left (Nat.le_of_lt ho)]
    have hMmem : ∀ o' : Nat, o' < n →
        (s.currentIndex % n + o') % n ∈ availFilter n now (ensureKeys n s.keys) →
        (s.currentIndex % n + o') % n ∈ m :: M' := by
      intro o' ho' hmem
      rw [← hMc]
      refine List.mem_filter.mpr ⟨List.mem_map.mpr ⟨o', List.mem_range.mpr ho', rfl⟩, ?_⟩
      rw [hAeq] at hmem
      simpa using hmem
    refine ⟨_, _, hgk, ?_, ?_, rfl⟩
    · have hrM : firstMinAux (fun i => (recAt (ensureKeys n s.keys) i).requests) m M'
          ∈ m :: M' := by
        rw [hdec]
        exact List.mem_append_right _ (List.mem_cons_self _ _)
      rw [← hMc] at hrM
      rw [hselEq, hAeq]
      simpa using (List.mem_filter.mp hrM).2
    · refine ⟨L1.length, ho, ?_, ?_, ?_⟩
      · rw [hselEq]
        exact hselo
      · intro o' ho' hmem
        rw [hselEq]
        exact hle _ (hMmem o' ho' hmem)
      · intro o' ho' hmem
        rw [hselEq]
        have hin1 : (s.currentIndex % n + o') % n ∈ L1 := by
          rw [hL1]
          exact List.mem_map.mpr ⟨o', List.mem_range.mpr ho', rfl⟩
        have hinpre : (s.currentIndex % n + o') % n ∈ pre := by
          rw [← hf1]
          refine List.mem_filter.mpr ⟨hin1, ?_⟩
          rw [hAeq] at hmem
          simpa using hmem
        exact hpre _ hinpre

theorem c7_getNextKey_selects_first_lowest_usage_witness :
    (∃ sel s', getNextKey 2 ⟨0, []⟩ 0 = (some sel, s') ∧
      sel ∈ availFilter 2 0 (ensureKeys 2 ([] : List (Option KeyRecord))) ∧
      (∃ o < 2, sel = ((0 : Nat) % 2 + o) % 2 ∧
        (∀ o' < 2,
          ((0 : Nat) % 2 + o') % 2 ∈ availFilter 2 0 (ensureKeys 2 []) →
          (recAt (ensureKeys 2 []) sel).requests ≤
            (recAt (ensureKeys 2 []) (((0 : Nat) % 2 + o') % 2)).requests) ∧
        (∀ o' < o,
          ((0 : Nat) % 2 + o') % 2 ∈ availFilter 2 0 (ensureKeys 2 []) →
          (recAt (ensureKeys 2 []) sel).requests <
            (recAt (ensureKeys 2 []) (((0 : Nat) % 2 + o') % 2)).requests)) ∧
      s'.currentIndex = (sel + 1) % 2) ∧
    ((⟨0, [some { defaultKeyRecord with cooldownUntil := some 100 }]⟩ : KeyState).currentIndex
      = (0 + 1) % 1) := by
  refine ⟨(c7_getNextKey_selects_first_lowest_usage 2 0 ⟨0, []⟩).1 (by decide), ?_⟩
  exact (c7_getNextKey_selects_first_lowest_usage 1 0
    ⟨0, [some { defaultKeyRecord with cooldownUntil := some 100 }]⟩).2 0
    ⟨0, [some { defaultKeyRecord with cooldownUntil := some 100 }]⟩ (by decide)

/-! ### C8 — cache capacity and eviction -/

/-- After the eviction pass of `cacheWrite`, at most 50 entries remain
(whatever the starting directory contents). -/
lemma cacheEvict_length_le (U : CacheStore) :
    (if 50 < (List.insertionSort byMtime U).length then
       U.filter (fun e =>
         e.1 ∉ ((List.insertionSort byMtime U).take
           ((List.insertionSort byMtime U).length - 50)).map Prod.fst)
     else U).length ≤ 50 := by
  obtain ⟨S, hS⟩ : ∃ S, List.insertionSort byMtime U = S := ⟨_, rfl⟩
  have hperm : List.Perm S U := hS ▸ List.perm_insertionSort byMtime U
  rw [hS]
  split
  · rename_i hlen
    generalize hD : (S.take (S.length - 50)).map Prod.fst = D
    rw [← List.countP_eq_length_filter]
    rw [← hperm.countP_eq _]
    have hsplit := List.take_append_drop (S.length - 50) S
    conv_lhs => rw [← hsplit]
    rw [List.countP_append]
    have hT : List.countP (fun e => decide (e.1 ∉ D)) (S.take (S.length - 50)) = 0 := by
      refine List.countP_eq_zero.mpr ?_
      intro a ha
      rw [decide_eq_true_eq]
      exact not_not_intro (hD ▸ List.mem_map.mpr ⟨a, ha, rfl⟩)
    rw [hT, Nat.zero_add]
    refine le_trans (List.countP_le_length _) ?_
    rw [List.length_drop]
    omega
  · rename_i hlen
    rw [← hperm.length_eq]
    omega

/-- The eviction pass keeps exactly the entries with fewer than 50
strictly-newer entries, provided file names are unique and write times are
pairwise distinct. -/
lemma cacheEvict_mem_iff (U : CacheStore)
    (hnodup : (U.map Prod.fst).Nodup)
    (hmt : U.Pairwise (fun a b => a.2.mtime ≠ b.2.mtime)) (e : String × CacheEntry) :
    (e ∈ (if 50 < (List.insertionSort byMtime U).length then
       U.filter (fun x =>
         x.1 ∉ ((List.insertionSort byMtime U).take
           ((List.insertionSort byMtime U).length - 50)).map Prod.fst)
     else U)) ↔
    e ∈ U ∧
      (U.filter (fun x => decide (e.2.mtime < x.2.mtime))).length < 50 := by
  obtain ⟨S, hS⟩ : ∃ S, List.insertionSort byMtime U = S := ⟨_, rfl⟩
  have hperm : List.Perm S U := hS ▸ List.perm_insertionSort byMtime U
  have hsorted : List.Pairwise byMtime S := hS ▸ List.sorted_insertionSort byMtime U
  have hsymm : Symmetric (fun a b : String × CacheEntry => a.2.mtime ≠ b.2.mtime) :=
    fun _ _ h => h.symm
  have hpairS : S.Pairwise (fun a b => a.2.mtime ≠ b.2.mtime) :=
    (hperm.pairwise_iff @hsymm).mpr hmt
  rw [hS]
  have hTD := List.take_append_drop (S.length - 50) S
  obtain ⟨-, -, hcross⟩ := List.pairwise_append.mp
    (show List.Pairwise byMtime (S.take (S.length - 50) ++ S.drop (S.length - 50)) by
      rw [hTD]; exact hsorted)
  obtain ⟨-, -, hqcross⟩ := List.pairwise_append.mp
    (show List.Pairwise (fun a b => a.2.mtime ≠ b.2.mtime)
        (S.take (S.length - 50) ++ S.drop (S.length - 50)) by
      rw [hTD]; exact hpairS)
  split
  · rename_i hlen
    rw [List.mem_filter]
    refine and_congr_right (fun heU => ?_)
    have heS : e ∈ S := hperm.mem_iff.mpr heU
    have hrank : (U.filter (fun x => decide (e.2.mtime < x.2.mtime))).length =
        List.countP (fun x => decide (e.2.mtime < x.2.mtime)) (S.take (S.length - 50)) +
        List.countP (fun x => decide (e.2.mtime < x.2.mtime)) (S.drop (S.length - 50)) := by
      rw [← List.countP_eq_length_filter, ← hperm.countP_eq _]
      conv_lhs => rw [← hTD]
      rw [List.countP_append]
    have hDlen : (S.drop (S.length - 50)).length = 50 := by
      rw [List.length_drop]
      omega
    have hdoomIff : e.1 ∈ (S.take (S.length - 50)).map Prod.fst ↔
        e ∈ S.take (S.length - 50) := by
      constructor
      · intro h
        obtain ⟨t, ht, htk⟩ := List.mem_map.mp h
        have htU : t ∈ U := hperm.mem_iff.mp (List.mem_of_mem_take ht)
        have hte : t = e := List.inj_on_of_nodup_map hnodup htU heU htk
        exact hte ▸ ht
      · intro h
        exact List.mem_map.mpr ⟨e, h, rfl⟩
    have hcases : e ∈ S.take (S.length - 50) ∨ e ∈ S.drop (S.length - 50) := by
      rw [← List.mem_append, hTD]
      exact heS
    rcases hcases with hT | hD
    · have hrge : 50 ≤ (U.filter (fun x => decide (e.2.mtime < x.2.mtime))).length := by
        rw [hrank]
        have hDcount : List.countP (fun x => decide (e.2.mtime < x.2.mtime))
            (S.drop (S.length - 50)) = (S.drop (S.length - 50)).length := by
          refine List.countP_eq_length.mpr ?_
          intro d hd
          rw [decide_eq_true_eq]
          exact lt_of_le_of_ne (hcross e hT d hd) (hqcross e hT d hd)
        rw [hDcount, hDlen]
        exact Nat.le_add_left 50 _
      constructor
      · intro hpred
        rw [decide_eq_true_eq] at hpred
        exact absurd (hdoomIff.mpr hT) hpred
      · intro hlt
        omega
    · have hrlt : (U.filter (fun x => decide (e.2.mtime < x.2.mtime))).length < 50 := by
        rw [hrank]
        have hTcount : List.countP (fun x => decide (e.2.mtime < x.2.mtime))
            (S.take (S.length - 50)) = 0 := by
          refine List.countP_eq_zero.mpr ?_
          intro t ht
          rw [decide_eq_true_eq]
          exact Nat.not_lt.mpr (hcross t ht e hD)
        have hDcount : List.countP (fun x => decide (e.2.mtime < x.2.mtime))
            (S.drop (S.length - 50)) < (S.drop (S.length - 50)).length := by
          refine lt_of_le_of_ne (List.countP_le_length _) (fun hEq => ?_)
          have := List.countP_eq_length.mp hEq e hD
          simp at this
        rw [hTcount, Nat.zero_add]
        rw [hDlen] at hDcount
        exact hDcount
      have hnotdoom : e.1 ∉ (S.take (S.length - 50)).map Prod.fst := by
        intro h
        have heT := hdoomIff.mp h
        exact absurd rfl (hqcross e heT e hD)
      constructor
      · intro _
        exact hrlt
      · intro _
        rw [decide_eq_true_eq]
        exact hnotdoom
  · rename_i hlen
    constructor
    · intro heU
      refine ⟨heU, ?_⟩
      rw [← List.countP_eq_length_filter]
      have hcle : List.countP (fun x => decide (e.2.mtime < x.2.mtime)) U ≤ U.length :=
        List.countP_le_length _
      have hne : List.countP (fun x => decide (e.2.mtime < x.2.mtime)) U ≠ U.length := by
        intro hEq
        have := List.countP_eq_length.mp hEq e heU
        simp at this
      have hUlen : U.length ≤ 50 := by
        rw [← hperm.length_eq]
        omega
      omega
    · exact fun h => h.1

/-- C8: after every `cacheWrite` the store holds at most 50 entries; and
under unique file names and pairwise-distinct write times, the entries
retained are exactly those with fewer than 50 strictly-newer entries —
i.e. the oldest-by-write-time entries beyond the cap are the ones deleted,
so a sequence of writes keeps exactly the 50 most-recently-written. -/
theorem c8_cache_capacity_and_eviction (store : CacheStore) (key data : String)
    (now : Nat) :
    (cacheWrite store key data now).length ≤ 50 ∧
    (((cacheUpdated store key data now).map Prod.fst).Nodup →
     (cacheUpdated store key data now).Pairwise (fun a b => a.2.mtime ≠ b.2.mtime) →
     ∀ e, e ∈ cacheWrite store key data now ↔
       e ∈ cacheUpdated store key data now ∧
       ((cacheUpdated store key data now).filter
          (fun x => decide (e.2.mtime < x.2.mtime))).length < 50) := by
  constructor
  · have h := cacheEvict_length_le (cacheUpdated store key data now)
    simpa only [cacheWrite] using h
  · intro h1 h2 e
    have h := cacheEvict_mem_iff (cacheUpdated store key data now) h1 h2 e
    simpa only [cacheWrite] using h

theorem c8_cache_capacity_and_eviction_witness :
    (cacheWrite [] "k" "d" 5).length ≤ 50 ∧
    (("k", (⟨5, "d"⟩ : CacheEntry)) ∈ cacheWrite [] "k" "d" 5 ↔
      ("k", (⟨5, "d"⟩ : CacheEntry)) ∈ cacheUpdated [] "k" "d" 5 ∧
      ((cacheUpdated [] "k" "d" 5).filter
        (fun x => decide ((5 : Nat) < x.2.mtime))).length < 50) :=
  ⟨(c8_cache_capacity_and_eviction [] "k" "d" 5).1,
   (c8_cache_capacity_and_eviction [] "k" "d" 5).2 (by decide) (by decide)
     ("k", (⟨5, "d"⟩ : CacheEntry))⟩

end ExaCli
